import Mathlib

/-!
# Verification of the ratmath arithmetic-functions package

Shallow embedding of the polynomial, number-theory and rational-function
operations of the package, with theorems checking the specification's claims
against the code.

Coefficients of the exact-rational type are embedded as `ℚ` (Mathlib's
rationals are stored in lowest terms with positive denominator, exactly like
the `Rational` class the source consumes), coefficient sequences as `List ℚ`,
and arbitrary-precision integers as `ℤ`/`ℕ`.

Bounded source loops whose bound variable mutates are embedded with an
explicit fuel parameter that is chosen large enough that it can never run
out, so that every definition evaluates inside the kernel.
-/

namespace Ratmath

/-- `trimCoeffs` from `src/polynomial.js`: starting from the highest index,
drop zero coefficients (`numerator === 0n`) while more than one coefficient
remains.  Implemented on the reversed list; `trimAux` is the descending scan. -/
def trimAux : List ℚ → List ℚ
  | [] => []
  | [a] => [a]
  | a :: rest => if a.num = 0 then trimAux rest else a :: rest

/-- `trimCoeffs(coeffs)` from `src/polynomial.js` lines 55–61. -/
def trimCoeffs (coeffs : List ℚ) : List ℚ :=
  (trimAux coeffs.reverse).reverse

/-- `hornerEval(coeffs, x)` from `src/polynomial.js` lines 66–77: if the list
is empty return `0`; otherwise start from the highest-degree coefficient and
fold `result = result * x + coeff` down to the constant term. -/
def hornerEval (coeffs : List ℚ) (x : ℚ) : ℚ :=
  match coeffs.reverse with
  | [] => 0
  | h :: t => t.foldl (fun acc d => acc * x + d) h

/-- `synthDivide(coeffs, c)` from `src/polynomial.js` lines 83–107: on the
descending coefficient list compute the running values
`result[i] = result[i-1]*c + descCoeffs[i]`; the last running value is the
remainder, the others (reversed back to ascending order) the quotient. -/
def synthDivide (coeffs : List ℚ) (c : ℚ) : List ℚ × ℚ :=
  match coeffs.reverse with
  | [] => ([], 0)
  | h :: t =>
      let result := List.scanl (fun acc d => acc * c + d) h t
      (result.dropLast.reverse, result.getLastD 0)

/-- The `polynomial` objects produced by the package: trimmed ascending
coefficient list plus the stored `degree` decoration. -/
structure RPolynomial where
  coeffs : List ℚ
  degree : ℤ
deriving DecidableEq, Repr

/-- The `Poly` constructor from `src/polynomial.js` lines 113–135: trim the
coefficient list and store `degree = trimmed.length - 1`. -/
def Poly (cs : List ℚ) : RPolynomial :=
  let trimmed := trimCoeffs cs
  ⟨trimmed, (trimmed.length : ℤ) - 1⟩

/-- `PolyCoeff(poly, n)` from `src/polynomial.js` lines 172–184: out-of-range
indices (negative or beyond the stored list) yield the rational `0`. -/
def PolyCoeff (p : RPolynomial) (n : ℤ) : ℚ :=
  if n < 0 ∨ (p.coeffs.length : ℤ) ≤ n then 0
  else p.coeffs.getD n.toNat 0

/-- `PolyEval(poly, x)` from `src/polynomial.js` lines 189–197. -/
def PolyEval (p : RPolynomial) (x : ℚ) : ℚ :=
  hornerEval p.coeffs x

/-- The loop body of `PolyRebase` from `src/polynomial.js` lines 497–521:
`for (let i = 0; i < coeffs.length; i++)` where `coeffs` is reassigned to the
shrinking quotient inside the body, so the bound is re-evaluated against the
current (shrinking) list each iteration.  `fuel` only guarantees termination
and is chosen so it never runs out (the loop performs at most
`coeffs.length` iterations since the list shrinks). -/
def polyRebaseAux : ℕ → ℕ → List ℚ → ℚ → List ℚ
  | 0, _, _, _ => []
  | fuel + 1, i, coeffs, a =>
      if i < coeffs.length then
        let sd := synthDivide coeffs a
        sd.2 :: polyRebaseAux fuel (i + 1) sd.1 a
      else []

/-- `PolyRebase(poly, a)` from `src/polynomial.js` lines 497–521. -/
def PolyRebase (coeffs : List ℚ) (a : ℚ) : List ℚ :=
  polyRebaseAux (coeffs.length + 1) 0 coeffs a

/-- Recursive (ascending) form of Horner's rule, used as a bridge in proofs. -/
def hornerRec : List ℚ → ℚ → ℚ
  | [], _ => 0
  | a :: l, x => a + x * hornerRec l x

/-- Follows the spec's words for the naive evaluation: term-by-term summation
`∑ i, coeffs[i] * x^i`. -/
def naiveEval (coeffs : List ℚ) (x : ℚ) : ℚ :=
  ∑ i ∈ Finset.range coeffs.length, coeffs.getD i 0 * x ^ i

@[simp] lemma hornerRec_nil (x : ℚ) : hornerRec [] x = 0 := rfl

@[simp] lemma hornerRec_cons (a : ℚ) (l : List ℚ) (x : ℚ) :
    hornerRec (a :: l) x = a + x * hornerRec l x := rfl

lemma scanl_getLastD (f : ℚ → ℚ → ℚ) :
    ∀ (t : List ℚ) (h d : ℚ), (List.scanl f h t).getLastD d = t.foldl f h
  | [], h, d => by simp
  | x :: t, h, d => by
    rw [List.scanl_cons, List.singleton_append, List.getLastD_cons]
    exact scanl_getLastD f t (f h x) h

lemma hornerRec_append (l : List ℚ) (a x : ℚ) :
    hornerRec (l ++ [a]) x = hornerRec l x + x ^ l.length * a := by
  induction l with
  | nil => simp
  | cons b l ih =>
    rw [List.cons_append, hornerRec_cons, ih, hornerRec_cons, List.length_cons]
    ring

lemma foldl_horner (x : ℚ) :
    ∀ (t : List ℚ) (h : ℚ),
      t.foldl (fun acc d => acc * x + d) h = hornerRec t.reverse x + h * x ^ t.length
  | [], h => by simp
  | d :: t, h => by
    rw [List.foldl_cons, foldl_horner x t (h * x + d)]
    rw [List.reverse_cons, hornerRec_append, List.length_reverse, List.length_cons]
    ring

lemma hornerEval_eq_hornerRec (coeffs : List ℚ) (x : ℚ) :
    hornerEval coeffs x = hornerRec coeffs x := by
  cases hr : coeffs.reverse with
  | nil =>
    have hc : coeffs = [] := by simpa using congrArg List.reverse hr
    subst hc
    rfl
  | cons h t =>
    have hc : coeffs = t.reverse ++ [h] := by
      have := congrArg List.reverse hr
      simpa using this
    have he : hornerEval coeffs x = t.foldl (fun acc d => acc * x + d) h := by
      unfold hornerEval
      rw [hr]
    rw [he, foldl_horner, hc, hornerRec_append, List.length_reverse]
    ring

lemma hornerRec_eq_naiveEval (coeffs : List ℚ) (x : ℚ) :
    hornerRec coeffs x = naiveEval coeffs x := by
  induction coeffs with
  | nil => simp [naiveEval]
  | cons a l ih =>
    rw [hornerRec_cons, ih]
    unfold naiveEval
    rw [List.length_cons, Finset.sum_range_succ', Finset.mul_sum]
    simp only [List.getD_cons_succ, List.getD_cons_zero, pow_zero, mul_one]
    rw [add_comm]
    congr 1
    exact Finset.sum_congr rfl fun i _ => by ring

/-- **C2**: for every coefficient list and every rational `c`, the remainder
returned by synthetic division of `P` by `(x - c)` equals the Horner
evaluation of `P` at `c`. -/
theorem claim_C2_synthDivide_remainder (coeffs : List ℚ) (c : ℚ) :
    (synthDivide coeffs c).2 = hornerEval coeffs c := by
  cases hr : coeffs.reverse with
  | nil =>
    have hc : coeffs = [] := by simpa using congrArg List.reverse hr
    subst hc
    rfl
  | cons h t =>
    have hs : (synthDivide coeffs c).2 =
        (List.scanl (fun acc d => acc * c + d) h t).getLastD 0 := by
      unfold synthDivide
      rw [hr]
    have he : hornerEval coeffs c = t.foldl (fun acc d => acc * c + d) h := by
      unfold hornerEval
      rw [hr]
    rw [hs, he, scanl_getLastD]

/-- **C6**: for every coefficient list and every rational `x`, Horner
evaluation returns the same value as the naive term-by-term summation
`∑ i, coeffs[i] * x^i` (exactness is inherent: all arithmetic is over `ℚ`). -/
theorem claim_C6_horner_eq_naive (coeffs : List ℚ) (x : ℚ) :
    hornerEval coeffs x = naiveEval coeffs x :=
  (hornerEval_eq_hornerRec coeffs x).trans (hornerRec_eq_naiveEval coeffs x)

/-- **C1**: refuted on the code.  `PolyRebase` mutates the loop variable that
also bounds the loop (`coeffs = quotient` inside `for (i = 0; i <
coeffs.length; i++)`), so for `P(x) = x` rebased at `a = 0` it performs only
one synthetic-division iteration instead of `deg(P)+1 = 2`, returns the
single Taylor coefficient `[0]`, and evaluating that result in Horner form at
shift `s = 1` gives `0` while `Eval(P, a + s) = Eval(P, 1) = 1`. -/
theorem claim_C1_polyRebase_bug :
    PolyRebase [0, 1] 0 = [0] ∧
    (PolyRebase [0, 1] 0).length = 1 ∧
    hornerEval (PolyRebase [0, 1] 0) 1 = 0 ∧
    hornerEval [0, 1] (0 + 1) = 1 := by
  have h : PolyRebase [0, 1] 0 = [0] := by
    norm_num [PolyRebase, polyRebaseAux, synthDivide]
  refine ⟨h, by rw [h]; rfl, by rw [h]; norm_num [hornerEval], by norm_num [hornerEval]⟩

/-- **C3**: refuted on the code.  `Poly({0})` (and any all-zero coefficient
list) is trimmed to the single coefficient `[0]` but stored with
`degree = trimmed.length - 1 = 0`, not the canonical degree `-1` required by
the spec and by the repository's own test
("Zero polynomial has degree -1"). -/
theorem claim_C3_poly_zero_degree_bug :
    Poly [0] = ⟨[0], 0⟩ ∧ (Poly [0]).degree ≠ -1 ∧
    Poly [0, 0, 0] = ⟨[0], 0⟩ ∧ (Poly [0, 0, 0]).degree ≠ -1 := by
  have h1 : Poly [0] = ⟨[0], 0⟩ := by norm_num [Poly, trimCoeffs, trimAux]
  have h2 : Poly [0, 0, 0] = ⟨[0], 0⟩ := by norm_num [Poly, trimCoeffs, trimAux]
  exact ⟨h1, by rw [h1]; decide, h2, by rw [h2]; decide⟩

/-- **C10**: `PolyCoeff` is total: any negative index, or any index at or
beyond the stored coefficient list, yields the rational `0`. -/
theorem claim_C10_polyCoeff_out_of_range (p : RPolynomial) (n : ℤ)
    (h : n < 0 ∨ (p.coeffs.length : ℤ) ≤ n) : PolyCoeff p n = 0 := by
  unfold PolyCoeff
  rw [if_pos h]

/-- Witness for C10 at concrete out-of-range indices `-1` and `7` on
`Poly {1, 2, 3}`. -/
theorem claim_C10_polyCoeff_out_of_range_witness :
    ((-1 : ℤ) < 0 ∨ (((Poly [1, 2, 3]).coeffs.length : ℤ) ≤ -1)) ∧
    (((7 : ℤ) < 0) ∨ (((Poly [1, 2, 3]).coeffs.length : ℤ) ≤ 7)) ∧
    PolyCoeff (Poly [1, 2, 3]) (-1) = 0 ∧ PolyCoeff (Poly [1, 2, 3]) 7 = 0 :=
  ⟨Or.inl (by norm_num),
   Or.inr (by norm_num [Poly, trimCoeffs, trimAux]),
   claim_C10_polyCoeff_out_of_range _ _ (Or.inl (by norm_num)),
   claim_C10_polyCoeff_out_of_range _ _
     (Or.inr (by norm_num [Poly, trimCoeffs, trimAux]))⟩

/-- The `ratfunc` objects of `src/rational-func.js`. -/
structure RatFunc where
  numer : RPolynomial
  denom : RPolynomial
deriving DecidableEq

/-- The possible results of the `RatFuncEval` handler. -/
inductive RatFuncValue where
  | strMessage : String → RatFuncValue
  | value : ℚ → RatFuncValue
  | divisionByZeroError : RatFuncValue
deriving DecidableEq

/-- `RatFuncEval(r, x)` from `src/rational-func.js` lines 61–74: for every
well-formed rational function the handler ignores `x` and returns the
placeholder string; it never evaluates the polynomials and never raises an
error. -/
def RatFuncEval (_r : RatFunc) (_x : ℚ) : RatFuncValue :=
  .strMessage "RatFuncEval not yet implemented"

/-- **C5**: refuted on the code.  `RatFuncEval` is an unimplemented stub: at
the pole `x = 1` of `R = 1/(x - 1)` it returns the placeholder string instead
of raising `DivisionByZero`, and more generally it never returns a rational
value or a `DivisionByZero` error for any input. -/
theorem claim_C5_ratFuncEval_stub :
    RatFuncEval ⟨Poly [1], Poly [-1, 1]⟩ 1 =
      .strMessage "RatFuncEval not yet implemented" ∧
    hornerEval (Poly [-1, 1]).coeffs 1 = 0 ∧
    (∀ (r : RatFunc) (x : ℚ),
      RatFuncEval r x ≠ .divisionByZeroError ∧
      ∀ q : ℚ, RatFuncEval r x ≠ .value q) := by
  refine ⟨rfl, ?_, fun r x => ⟨by simp [RatFuncEval], fun q => by simp [RatFuncEval]⟩⟩
  norm_num [Poly, trimCoeffs, trimAux, hornerEval]

/-- The loop of `gcdBigInt` from `src/number-theory.js` lines 28–35:
`while (b !== 0) { (a, b) := (b, a % b) }` on absolute values.  The second
argument strictly decreases, so fuel `b + 1` never runs out. -/
def gcdLoop : ℕ → ℕ → ℕ → ℕ
  | 0, a, _ => a
  | fuel + 1, a, b => if b = 0 then a else gcdLoop fuel b (a % b)

/-- `gcdBigInt(a, b)` from `src/number-theory.js` lines 28–35. -/
def gcdBigInt (a b : ℤ) : ℤ :=
  (gcdLoop (b.natAbs + 1) a.natAbs b.natAbs : ℕ)

/-- The recursion of `extGcdBigInt` from `src/number-theory.js` lines 51–59.
JS BigInt `%` and `/` truncate toward zero, i.e. `Int.tmod` / `Int.tdiv`.
The recursion depth is bounded by `|b| + 1` because `|a tmod b| < |b|`, so
the fuel never runs out; the fuel-exhausted base case is made to coincide
with the `b = 0` base case. -/
def extGcdAux : ℕ → ℤ → ℤ → ℤ × ℤ × ℤ
  | 0, a, _ => (a, 1, 0)
  | fuel + 1, a, b =>
      if b = 0 then (a, 1, 0)
      else
        let r := extGcdAux fuel b (Int.tmod a b)
        (r.1, r.2.2, r.2.1 - Int.tdiv a b * r.2.2)

/-- `extGcdBigInt(a, b)` from `src/number-theory.js` lines 51–59. -/
def extGcdBigInt (a b : ℤ) : ℤ × ℤ × ℤ := extGcdAux (b.natAbs + 1) a b

/-- The variadic `Gcd` handler from `src/number-theory.js` lines 132–148:
folds `gcdBigInt` over the argument list; an empty call is an error. -/
def Gcd (args : List ℤ) : Option ℤ :=
  match args with
  | [] => none
  | a :: rest => some (rest.foldl (fun acc v => gcdBigInt acc v) a)

/-- `ExtGcd(a, b)` from `src/number-theory.js` lines 174–186 (the handler
returns the triple produced by `extGcdBigInt` as a sequence `{g, x, y}`). -/
def ExtGcd (a b : ℤ) : ℤ × ℤ × ℤ := extGcdBigInt a b

lemma extGcdAux_bezout : ∀ (fuel : ℕ) (a b : ℤ),
    a * (extGcdAux fuel a b).2.1 + b * (extGcdAux fuel a b).2.2 =
      (extGcdAux fuel a b).1
  | 0, a, b => by simp [extGcdAux]
  | fuel + 1, a, b => by
    rcases eq_or_ne b 0 with hb | hb
    · simp [extGcdAux, hb]
    · have ih := extGcdAux_bezout fuel b (Int.tmod a b)
      have ht : Int.tmod a b = a - b * Int.tdiv a b := by
        have h := Int.tmod_add_tdiv a b
        linarith
      simp only [extGcdAux, if_neg hb]
      linear_combination ih - (extGcdAux fuel b (Int.tmod a b)).2.2 * ht

/-- **C9**: `Gcd(48, 18) = 6`; for every pair of integers the triple
`(g, x, y)` returned by the extended Euclidean algorithm satisfies
`a*x + b*y = g`; and `ExtGcd(35, 15)` returns gcd `5` with Bézout
coefficients for `35x + 15y = 5`. -/
theorem claim_C9_gcd_extgcd :
    Gcd [48, 18] = some 6 ∧
    (∀ a b : ℤ,
      a * (ExtGcd a b).2.1 + b * (ExtGcd a b).2.2 = (ExtGcd a b).1) ∧
    (ExtGcd 35 15).1 = 5 ∧
    35 * (ExtGcd 35 15).2.1 + 15 * (ExtGcd 35 15).2.2 = 5 := by
  refine ⟨?_, fun a b => extGcdAux_bezout _ a b, ?_, ?_⟩
  · decide
  · decide
  · decide

/-- The sign-change counting loop shared by `PolySignChanges` and
`PolyDescartes` (`src/polynomial.js` lines 526–603): walk adjacent pairs and
count positions where the `numerator > 0n` flags of consecutive entries
differ (the input has already been filtered to nonzero coefficients). -/
def countChanges : List ℚ → ℕ
  | [] => 0
  | [_] => 0
  | a :: b :: rest =>
      (if decide (0 < a.num) ≠ decide (0 < b.num) then 1 else 0) +
        countChanges (b :: rest)

/-- `PolySignChanges(poly)` from `src/polynomial.js` lines 526–547. -/
def PolySignChanges (coeffs : List ℚ) : ℕ :=
  countChanges (coeffs.filter (fun c => decide (c.num ≠ 0)))

/-- The `P(-x)` coefficient transform of `PolyDescartes`: negate entries at
odd index. -/
def negateOdd (coeffs : List ℚ) : List ℚ :=
  coeffs.mapIdx (fun i c => if i % 2 = 1 then -c else c)

/-- The `for (let k = changes; k >= 0; k -= 2)` collection loop of
`PolyDescartes` (the JS counter may go negative, ending the loop, so the
final entry is `0` or `1`). -/
def downByTwo : ℕ → List ℕ
  | 0 => [0]
  | 1 => [1]
  | n + 2 => (n + 2) :: downByTwo n

/-- The record returned by `PolyDescartes`. -/
structure DescartesReport where
  positiveChanges : ℕ
  negativeChanges : ℕ
  possiblePositive : List ℕ
  possibleNegative : List ℕ
deriving DecidableEq, Repr

/-- `PolyDescartes(poly)` from `src/polynomial.js` lines 552–603. -/
def PolyDescartes (coeffs : List ℚ) : DescartesReport :=
  let posChanges := countChanges (coeffs.filter (fun c => decide (c.num ≠ 0)))
  let negChanges :=
    countChanges ((negateOdd coeffs).filter (fun c => decide (c.num ≠ 0)))
  ⟨posChanges, negChanges, downByTwo posChanges, downByTwo negChanges⟩

/-- Modelled from the spec's words: the descending sequence
`v, v-2, v-4, …` stopping at `0` or `1` (i.e. at `v % 2`). -/
def descartesCountsSpec (v : ℕ) : List ℕ :=
  (List.range (v / 2 + 1)).map (fun j => v - 2 * j)

lemma downByTwo_eq_spec : ∀ v : ℕ, downByTwo v = descartesCountsSpec v
  | 0 => by decide
  | 1 => by decide
  | n + 2 => by
    rw [downByTwo, downByTwo_eq_spec n]
    unfold descartesCountsSpec
    have h2 : (n + 2) / 2 + 1 = n / 2 + 1 + 1 := by omega
    have hf : ((fun j => n + 2 - 2 * j) ∘ Nat.succ) = fun j => n - 2 * j :=
      funext fun j => by simp only [Function.comp_apply]; omega
    conv_rhs => rw [h2, List.range_succ_eq_map, List.map_cons, List.map_map, hf]
    congr 1

/-- **C7**: the Descartes analysis reports as possible positive-root counts
exactly the descending sequence `v, v-2, …` down to `0` or `1`, where `v` is
the number of adjacent sign changes among the nonzero coefficients; in
particular for `Poly {-4, 2, -1, 3}` it reports `3` sign changes and possible
positive-root counts `{3, 1}`. -/
theorem claim_C7_descartes :
    (∀ coeffs : List ℚ,
      (PolyDescartes coeffs).possiblePositive =
        descartesCountsSpec (PolyDescartes coeffs).positiveChanges) ∧
    (PolyDescartes [-4, 2, -1, 3]).positiveChanges = 3 ∧
    (PolyDescartes [-4, 2, -1, 3]).possiblePositive = [3, 1] := by
  refine ⟨fun coeffs => downByTwo_eq_spec _, ?_, ?_⟩ <;>
    norm_num [PolyDescartes, countChanges, downByTwo]

/-- The trial-division divisor enumeration inside `PolyRatRoots`
(`src/polynomial.js` lines 632–646): `for (i = 1; i*i <= p; i++)`, pushing
`i` and (when `i*i ≠ p`) the cofactor `p / i` for every divisor `i`.  The
loop index only grows while `i*i ≤ p`, so `i ≤ p` throughout and fuel
`p + 1` starting from `i = 1` never runs out. -/
def divisorsAux : ℕ → ℕ → ℕ → List ℕ
  | 0, _, _ => []
  | fuel + 1, p, i =>
      if i * i ≤ p then
        (if p % i = 0 then i :: (if i * i ≠ p then [p / i] else []) else [])
          ++ divisorsAux fuel p (i + 1)
      else []

/-- Divisor list of `p` as enumerated by `PolyRatRoots`. -/
def divisorsOf (p : ℕ) : List ℕ := divisorsAux (p + 1) p 1

/-- One candidate test from the `PolyRatRoots` main loop
(`src/polynomial.js` lines 648–674): skip candidates already in the `tested`
set; otherwise mark tested and append to `roots` when the Horner value's
numerator is zero.  State is `(tested, roots)`. -/
def testCandidate (coeffs : List ℚ) (st : List ℚ × List ℚ) (cand : ℚ) :
    List ℚ × List ℚ :=
  if cand ∈ st.1 then st
  else if (hornerEval coeffs cand).num = 0 then (cand :: st.1, st.2 ++ [cand])
  else (cand :: st.1, st.2)

/-- One `(pVal, qVal)` iteration: test `+p/q` then `-p/q` (the JS
`new Rational(pVal, qVal)` reduces to lowest terms, i.e. rational division). -/
def testPair (coeffs : List ℚ) (st : List ℚ × List ℚ) (pv qv : ℕ) :
    List ℚ × List ℚ :=
  testCandidate coeffs (testCandidate coeffs st ((pv : ℚ) / (qv : ℚ)))
    (-((pv : ℚ) / (qv : ℚ)))

/-- The double candidate loop of `PolyRatRoots`. -/
def ratRootsSearch (coeffs : List ℚ) (pDivs qDivs : List ℕ) :
    List ℚ × List ℚ :=
  pDivs.foldl
    (fun st pv => qDivs.foldl (fun st qv => testPair coeffs st pv qv) st)
    ([], [])

/-- `PolyRatRoots(poly)` from `src/polynomial.js` lines 608–687.  The final
JS comparator sort (`roots.sort((a, b) => a.compare(b))`) is embedded as
insertion sort by `≤`: the tested-set makes the root list duplicate-free, so
every comparison sort produces the same, unique ascending arrangement. -/
def PolyRatRoots (coeffs : List ℚ) : List ℚ :=
  if coeffs = [] then []
  else if (coeffs.headD 0).num.natAbs = 0 ∨ (coeffs.getLastD 0).num.natAbs = 0
    then []
  else
    List.insertionSort (· ≤ ·)
      (ratRootsSearch coeffs (divisorsOf (coeffs.headD 0).num.natAbs)
        (divisorsOf (coeffs.getLastD 0).num.natAbs)).2

lemma mem_divisorsAux (p : ℕ) (hp : 1 ≤ p) (d : ℕ) :
    ∀ (fuel i : ℕ), 1 ≤ i → p < i + fuel →
      (d ∈ divisorsAux fuel p i ↔
        d ∣ p ∧ ((i ≤ d ∧ d * d ≤ p) ∨ (p < d * d ∧ i ≤ p / d)))
  | 0, i, hi, hfuel => by
    simp only [divisorsAux, List.not_mem_nil, false_iff]
    rintro ⟨hdvd, hA | hB⟩
    · have hdp : d ≤ p := Nat.le_of_dvd hp hdvd
      omega
    · have hq : p / d ≤ p := Nat.div_le_self p d
      omega
  | fuel + 1, i, hi, hfuel => by
    rw [divisorsAux]
    by_cases hguard : i * i ≤ p
    · rw [if_pos hguard, List.mem_append,
        mem_divisorsAux p hp d fuel (i + 1) (by omega) (by omega)]
      have hip : 0 < i := hi
      constructor
      · rintro (hin | ⟨hdvd, hA | hB⟩)
        · by_cases hmod : p % i = 0
          · rw [if_pos hmod] at hin
            have hidvd : i ∣ p := Nat.dvd_of_mod_eq_zero hmod
            rcases List.mem_cons.mp hin with rfl | hin2
            · exact ⟨hidvd, Or.inl ⟨le_refl d, hguard⟩⟩
            · by_cases hsq : i * i ≠ p
              · rw [if_pos hsq, List.mem_singleton] at hin2
                subst hin2
                refine ⟨Nat.div_dvd_of_dvd hidvd, ?_⟩
                rcases le_or_lt (p / i * (p / i)) p with hle | hlt
                · exact Or.inl ⟨(Nat.le_div_iff_mul_le hip).mpr hguard, hle⟩
                · refine Or.inr ⟨hlt, ?_⟩
                  rw [Nat.div_div_self hidvd (by omega)]
              · rw [if_neg hsq] at hin2
                exact absurd hin2 (List.not_mem_nil d)
          · rw [if_neg hmod] at hin
            exact absurd hin (List.not_mem_nil d)
        · exact ⟨hdvd, Or.inl ⟨by omega, hA.2⟩⟩
        · exact ⟨hdvd, Or.inr ⟨hB.1, by omega⟩⟩
      · rintro ⟨hdvd, hA | hB⟩
        · have hd1 : 1 ≤ d := Nat.pos_of_dvd_of_pos hdvd hp
          rcases Nat.eq_or_lt_of_le hA.1 with heq | hlt
          · have hmod : p % i = 0 := by
              rw [heq]
              exact Nat.mod_eq_zero_of_dvd hdvd
            left
            rw [if_pos hmod, heq]
            exact List.mem_cons_self d _
          · exact Or.inr ⟨hdvd, Or.inl ⟨hlt, hA.2⟩⟩
        · have hd1 : 1 ≤ d := Nat.pos_of_dvd_of_pos hdvd hp
          have hedvd : p / d ∣ p := Nat.div_dvd_of_dvd hdvd
          have hpde : p = d * (p / d) := (Nat.mul_div_cancel' hdvd).symm
          have helt : p / d < d := by
            rcases lt_or_le (p / d) d with h | h
            · exact h
            · exfalso
              have : d * d ≤ d * (p / d) := Nat.mul_le_mul_left d h
              omega
          rcases Nat.eq_or_lt_of_le hB.2 with he | hlt
          · -- the loop index has reached `p / d`: `d` enters as the cofactor
            have hmod : p % i = 0 := by
              rw [he]
              exact Nat.mod_eq_zero_of_dvd hedvd
            left
            rw [if_pos hmod]
            have hdpi : d = p / i := by
              rw [he, Nat.div_div_self hdvd (by omega)]
            have hine : i * i ≠ p := by
              have hid : i < d := by omega
              have h1 : i * i < d * i := (Nat.mul_lt_mul_right hip).mpr hid
              have h2 : d * i = p := by
                rw [he]
                omega
              omega
            rw [if_pos hine, hdpi]
            exact List.mem_cons_of_mem i (List.mem_singleton_self _)
          · exact Or.inr ⟨hdvd, Or.inr ⟨hB.1, hlt⟩⟩
    · rw [if_neg hguard]
      simp only [List.not_mem_nil, false_iff]
      push_neg at hguard
      rintro ⟨hdvd, hA | hB⟩
      · have : i * i ≤ d * d := Nat.mul_le_mul hA.1 hA.1
        omega
      · have hd1 : 1 ≤ d := Nat.pos_of_dvd_of_pos hdvd hp
        have hid : i * d ≤ p := (Nat.le_div_iff_mul_le hd1).mp hB.2
        have h1 : d < i := by
          by_contra hcon
          push_neg at hcon
          have : i * i ≤ i * d := Nat.mul_le_mul_left i hcon
          omega
        have h2 : i < d := by
          by_contra hcon
          push_neg at hcon
          have : d * d ≤ d * i := Nat.mul_le_mul_left d hcon
          have : d * i = i * d := Nat.mul_comm d i
          omega
        omega

lemma mem_divisorsOf (p d : ℕ) (hp : 1 ≤ p) : d ∈ divisorsOf p ↔ d ∣ p := by
  rw [divisorsOf, mem_divisorsAux p hp d (p + 1) 1 (le_refl 1) (by omega)]
  constructor
  · exact fun h => h.1
  · intro hdvd
    have hd1 : 1 ≤ d := Nat.pos_of_dvd_of_pos hdvd hp
    refine ⟨hdvd, ?_⟩
    rcases le_or_lt (d * d) p with hle | hlt
    · exact Or.inl ⟨hd1, hle⟩
    · refine Or.inr ⟨hlt, ?_⟩
      rw [Nat.one_le_div_iff hd1]
      exact Nat.le_of_dvd hp hdvd

/-- Invariant of the candidate search state `(tested, roots)`: the root list
is duplicate-free and contains exactly the tested candidates whose Horner
value is zero. -/
def SearchInv (coeffs : List ℚ) (st : List ℚ × List ℚ) : Prop :=
  st.2.Nodup ∧ ∀ x : ℚ, x ∈ st.2 ↔ (x ∈ st.1 ∧ (hornerEval coeffs x).num = 0)

lemma testCandidate_fst_mem (coeffs : List ℚ) (st : List ℚ × List ℚ)
    (cand y : ℚ) :
    y ∈ (testCandidate coeffs st cand).1 ↔ y = cand ∨ y ∈ st.1 := by
  unfold testCandidate
  by_cases h1 : cand ∈ st.1
  · rw [if_pos h1]
    constructor
    · exact Or.inr
    · rintro (rfl | h)
      · exact h1
      · exact h
  · rw [if_neg h1]
    by_cases h2 : (hornerEval coeffs cand).num = 0 <;>
      simp [h2, List.mem_cons]

lemma testCandidate_inv (coeffs : List ℚ) (st : List ℚ × List ℚ) (cand : ℚ)
    (h : SearchInv coeffs st) : SearchInv coeffs (testCandidate coeffs st cand) := by
  obtain ⟨hnd, hmem⟩ := h
  unfold testCandidate
  by_cases h1 : cand ∈ st.1
  · rw [if_pos h1]
    exact ⟨hnd, hmem⟩
  · rw [if_neg h1]
    by_cases h2 : (hornerEval coeffs cand).num = 0
    · rw [if_pos h2]
      have hcr : cand ∉ st.2 := fun hc => h1 ((hmem cand).mp hc).1
      constructor
      · rw [List.nodup_append]
        refine ⟨hnd, List.nodup_singleton cand, fun a ha hb => ?_⟩
        rw [List.mem_singleton] at hb
        exact hcr (hb ▸ ha)
      · intro x
        rw [List.mem_append, List.mem_singleton, List.mem_cons]
        constructor
        · rintro (hx | rfl)
          · have := (hmem x).mp hx
            exact ⟨Or.inr this.1, this.2⟩
          · exact ⟨Or.inl rfl, h2⟩
        · rintro ⟨rfl | hx, hz⟩
          · exact Or.inr rfl
          · exact Or.inl ((hmem x).mpr ⟨hx, hz⟩)
    · rw [if_neg h2]
      refine ⟨hnd, fun x => ?_⟩
      simp only [List.mem_cons]
      constructor
      · intro hx
        have := (hmem x).mp hx
        exact ⟨Or.inr this.1, this.2⟩
      · rintro ⟨rfl | hx, hz⟩
        · exact absurd hz h2
        · exact (hmem x).mpr ⟨hx, hz⟩

lemma testPair_fst_mem (coeffs : List ℚ) (st : List ℚ × List ℚ)
    (pv qv : ℕ) (y : ℚ) :
    y ∈ (testPair coeffs st pv qv).1 ↔
      (y = (pv : ℚ) / (qv : ℚ) ∨ y = -((pv : ℚ) / (qv : ℚ))) ∨ y ∈ st.1 := by
  unfold testPair
  rw [testCandidate_fst_mem, testCandidate_fst_mem]
  tauto

lemma testPair_inv (coeffs : List ℚ) (st : List ℚ × List ℚ) (pv qv : ℕ)
    (h : SearchInv coeffs st) : SearchInv coeffs (testPair coeffs st pv qv) :=
  testCandidate_inv _ _ _ (testCandidate_inv _ _ _ h)

lemma foldl_qDivs_fst_mem (coeffs : List ℚ) (pv : ℕ) (y : ℚ) :
    ∀ (qDivs : List ℕ) (st : List ℚ × List ℚ),
      (y ∈ (qDivs.foldl (fun st qv => testPair coeffs st pv qv) st).1 ↔
        (∃ qv ∈ qDivs,
          y = (pv : ℚ) / (qv : ℚ) ∨ y = -((pv : ℚ) / (qv : ℚ))) ∨ y ∈ st.1)
  | [], st => by simp
  | qv :: qDivs, st => by
    rw [List.foldl_cons, foldl_qDivs_fst_mem coeffs pv y qDivs, testPair_fst_mem]
    simp only [List.mem_cons]
    constructor
    · rintro (⟨q, hq, hy⟩ | (hy | hy) | hst)
      · exact Or.inl ⟨q, Or.inr hq, hy⟩
      · exact Or.inl ⟨qv, Or.inl rfl, Or.inl hy⟩
      · exact Or.inl ⟨qv, Or.inl rfl, Or.inr hy⟩
      · exact Or.inr hst
    · rintro (⟨q, rfl | hq, hy⟩ | hst)
      · exact Or.inr (Or.inl hy)
      · exact Or.inl ⟨q, hq, hy⟩
      · exact Or.inr (Or.inr hst)

lemma foldl_qDivs_inv (coeffs : List ℚ) (pv : ℕ) :
    ∀ (qDivs : List ℕ) (st : List ℚ × List ℚ), SearchInv coeffs st →
      SearchInv coeffs (qDivs.foldl (fun st qv => testPair coeffs st pv qv) st)
  | [], _, h => h
  | qv :: qDivs, st, h =>
    foldl_qDivs_inv coeffs pv qDivs _ (testPair_inv coeffs st pv qv h)

lemma foldl_pDivs_fst_mem (coeffs : List ℚ) (qDivs : List ℕ) (y : ℚ) :
    ∀ (pDivs : List ℕ) (st : List ℚ × List ℚ),
      (y ∈ (pDivs.foldl
          (fun st pv => qDivs.foldl (fun st qv => testPair coeffs st pv qv) st)
          st).1 ↔
        (∃ pv ∈ pDivs, ∃ qv ∈ qDivs,
          y = (pv : ℚ) / (qv : ℚ) ∨ y = -((pv : ℚ) / (qv : ℚ))) ∨ y ∈ st.1)
  | [], st => by simp
  | pv :: pDivs, st => by
    rw [List.foldl_cons, foldl_pDivs_fst_mem coeffs qDivs y pDivs,
      foldl_qDivs_fst_mem]
    simp only [List.mem_cons]
    constructor
    · rintro (⟨p, hp, q, hq, hy⟩ | ⟨q, hq, hy⟩ | hst)
      · exact Or.inl ⟨p, Or.inr hp, q, hq, hy⟩
      · exact Or.inl ⟨pv, Or.inl rfl, q, hq, hy⟩
      · exact Or.inr hst
    · rintro (⟨p, rfl | hp, q, hq, hy⟩ | hst)
      · exact Or.inr (Or.inl ⟨q, hq, hy⟩)
      · exact Or.inl ⟨p, hp, q, hq, hy⟩
      · exact Or.inr (Or.inr hst)

lemma foldl_pDivs_inv (coeffs : List ℚ) (qDivs : List ℕ) :
    ∀ (pDivs : List ℕ) (st : List ℚ × List ℚ), SearchInv coeffs st →
      SearchInv coeffs (pDivs.foldl
        (fun st pv => qDivs.foldl (fun st qv => testPair coeffs st pv qv) st) st)
  | [], _, h => h
  | pv :: pDivs, st, h =>
    foldl_pDivs_inv coeffs qDivs pDivs _ (foldl_qDivs_inv coeffs pv qDivs st h)

lemma ratRootsSearch_inv (coeffs : List ℚ) (pDivs qDivs : List ℕ) :
    SearchInv coeffs (ratRootsSearch coeffs pDivs qDivs) :=
  foldl_pDivs_inv coeffs qDivs pDivs ([], []) ⟨List.nodup_nil, by simp⟩

lemma ratRootsSearch_snd_mem (coeffs : List ℚ) (pDivs qDivs : List ℕ) (y : ℚ) :
    y ∈ (ratRootsSearch coeffs pDivs qDivs).2 ↔
      ((∃ pv ∈ pDivs, ∃ qv ∈ qDivs,
        y = (pv : ℚ) / (qv : ℚ) ∨ y = -((pv : ℚ) / (qv : ℚ))) ∧
        (hornerEval coeffs y).num = 0) := by
  have hinv := ratRootsSearch_inv coeffs pDivs qDivs
  rw [hinv.2 y]
  unfold ratRootsSearch
  rw [foldl_pDivs_fst_mem]
  simp

/-- **C4**: refuted on the code.  For `P(x) = x` (constant coefficient zero)
`PolyRatRoots` takes the `p === 0n` early return and reports *no* roots at
all — it never factors out `x`, even though `0` is a root
(`Eval(P, 0) = 0`). -/
theorem claim_C4_ratRoots_zero_constant_bug :
    PolyRatRoots [0, 1] = [] ∧ hornerEval [0, 1] 0 = 0 := by
  constructor
  · norm_num [PolyRatRoots]
  · norm_num [hornerEval]

/-- **C8**: for every polynomial with nonzero integer constant and leading
coefficients, `PolyRatRoots` returns — without duplicates and sorted
ascending — exactly the candidates `±p/q` (`p` a positive divisor of `|a₀|`,
`q` a positive divisor of `|aₙ|`) at which Horner evaluation yields exact
zero; and in particular `PolyRatRoots` of `Poly {6, -5, 1}` is `{2, 3}`. -/
theorem claim_C8_ratRoots :
    (∀ coeffs : List ℚ, coeffs ≠ [] →
      (coeffs.headD 0).den = 1 → coeffs.headD 0 ≠ 0 →
      (coeffs.getLastD 0).den = 1 → coeffs.getLastD 0 ≠ 0 →
      (PolyRatRoots coeffs).Nodup ∧
      (PolyRatRoots coeffs).Sorted (· ≤ ·) ∧
      (∀ x : ℚ, x ∈ PolyRatRoots coeffs ↔
        ((∃ pv qv : ℕ, 0 < pv ∧ 0 < qv ∧
            pv ∣ (coeffs.headD 0).num.natAbs ∧
            qv ∣ (coeffs.getLastD 0).num.natAbs ∧
            (x = (pv : ℚ) / (qv : ℚ) ∨ x = -((pv : ℚ) / (qv : ℚ)))) ∧
          hornerEval coeffs x = 0))) ∧
    PolyRatRoots [6, -5, 1] = [2, 3] := by
  constructor
  · intro coeffs hne h0den h0 hlden hl
    have hp : (coeffs.headD 0).num.natAbs ≠ 0 := fun hcon =>
      h0 (Rat.num_eq_zero.mp (Int.natAbs_eq_zero.mp hcon))
    have hq : (coeffs.getLastD 0).num.natAbs ≠ 0 := fun hcon =>
      hl (Rat.num_eq_zero.mp (Int.natAbs_eq_zero.mp hcon))
    have hp1 : 1 ≤ (coeffs.headD 0).num.natAbs := Nat.one_le_iff_ne_zero.mpr hp
    have hq1 : 1 ≤ (coeffs.getLastD 0).num.natAbs := Nat.one_le_iff_ne_zero.mpr hq
    have hPR : PolyRatRoots coeffs =
        List.insertionSort (· ≤ ·)
          (ratRootsSearch coeffs (divisorsOf (coeffs.headD 0).num.natAbs)
            (divisorsOf (coeffs.getLastD 0).num.natAbs)).2 := by
      unfold PolyRatRoots
      rw [if_neg hne, if_neg]
      push_neg
      exact ⟨hp, hq⟩
    have hinv := ratRootsSearch_inv coeffs
      (divisorsOf (coeffs.headD 0).num.natAbs)
      (divisorsOf (coeffs.getLastD 0).num.natAbs)
    have hperm := List.perm_insertionSort ((· ≤ ·) : ℚ → ℚ → Prop)
      (ratRootsSearch coeffs (divisorsOf (coeffs.headD 0).num.natAbs)
        (divisorsOf (coeffs.getLastD 0).num.natAbs)).2
    refine ⟨?_, ?_, ?_⟩
    · rw [hPR]
      exact hperm.nodup_iff.mpr hinv.1
    · rw [hPR]
      exact List.sorted_insertionSort _ _
    · intro x
      rw [hPR, List.mem_insertionSort, ratRootsSearch_snd_mem]
      constructor
      · rintro ⟨⟨pv, hpv, qv, hqv, hx⟩, hz⟩
        rw [mem_divisorsOf _ _ hp1] at hpv
        rw [mem_divisorsOf _ _ hq1] at hqv
        exact ⟨⟨pv, qv, Nat.pos_of_dvd_of_pos hpv hp1,
          Nat.pos_of_dvd_of_pos hqv hq1, hpv, hqv, hx⟩, Rat.num_eq_zero.mp hz⟩
      · rintro ⟨⟨pv, qv, _, _, hpv, hqv, hx⟩, hz⟩
        refine ⟨⟨pv, ?_, qv, ?_, hx⟩, Rat.num_eq_zero.mpr hz⟩
        · rw [mem_divisorsOf _ _ hp1]
          exact hpv
        · rw [mem_divisorsOf _ _ hq1]
          exact hqv
  · have hne : ([6, -5, 1] : List ℚ) ≠ [] := by simp
    norm_num [PolyRatRoots, hne, divisorsOf, divisorsAux, ratRootsSearch,
      testPair, testCandidate, hornerEval, List.insertionSort,
      List.orderedInsert]

/-- Witness for C8: the general statement applied to the concrete polynomial
`Poly {6, -5, 1}`, whose hypotheses (nonzero integer constant and leading
coefficients) hold by evaluation. -/
theorem claim_C8_ratRoots_witness :
    ([6, -5, 1] : List ℚ) ≠ [] ∧ (PolyRatRoots [6, -5, 1]).Nodup ∧
      (PolyRatRoots [6, -5, 1]).Sorted (· ≤ ·) :=
  ⟨by simp,
   (claim_C8_ratRoots.1 [6, -5, 1] (by simp) (by norm_num) (by norm_num)
      (by norm_num) (by norm_num)).1,
   (claim_C8_ratRoots.1 [6, -5, 1] (by simp) (by norm_num) (by norm_num)
      (by norm_num) (by norm_num)).2.1⟩

end Ratmath
